import Mathlib

/-!
Verification of the dimensionality-reduction engine of the usaa-fraud-project
repository: the classes `SimplePCA` and `SimpleTSNE` in
`src/scripts/visualize_embeddings.py` (the same PCA routine also appears as
`reduce_dimensions` in `src/scripts/annotated_fraud_viz.py`).

Modelling conventions:
* numpy float arrays are modelled over an arbitrary linear ordered field `α`
  (exact arithmetic); an `N×D` array is a function `Fin N → Fin D → α`.
* `np.exp` and `np.log` are uninterpreted oracles `expf logf : α → α`; the
  theorems below hold for every interpretation, in particular the real one.
* `np.linalg.eig` is library code, modelled as an oracle `eig` producing
  complex eigenvalues and eigenvectors (pairs of real and imaginary part) or
  raising `LinAlgError` (the one exception numpy can raise here, e.g. on
  non-finite input); `Except.error` models the raised exception.
* NumPy's process-wide random generator is modelled as an abstract state
  threaded through the public calls; `np.random.seed(s)` replaces it by a
  state determined by `s` alone.
-/

namespace FraudViz

/-- An `N×D` numpy array of scalars `α`. -/
abbrev Mat (n d : ℕ) (α : Type) := Fin n → Fin d → α

/-- A numpy complex scalar, as a (real part, imaginary part) pair. -/
abbrev Cx (α : Type) := α × α

namespace Cx

/-- Real part. -/
def re {α : Type} (z : Cx α) : α := z.1

/-- Imaginary part. -/
def im {α : Type} (z : Cx α) : α := z.2

/-- Embedding of a real scalar (numpy upcasts real arrays to complex when they
meet a complex array). -/
def ofReal {α : Type} [Zero α] (x : α) : Cx α := (x, 0)

/-- Complex multiplication. -/
def mul {α : Type} [CommRing α] (z w : Cx α) : Cx α :=
  (z.1 * w.1 - z.2 * w.2, z.1 * w.2 + z.2 * w.1)

/-- The order numpy uses to sort complex values: lexicographic on
(real part, imaginary part). -/
def lexLe {α : Type} [LinearOrder α] (z w : Cx α) : Prop :=
  z.1 < w.1 ∨ (z.1 = w.1 ∧ z.2 ≤ w.2)

instance {α : Type} [LinearOrder α] : DecidableRel (lexLe (α := α)) := by
  intro z w
  unfold lexLe
  infer_instance

theorem lexLe_total {α : Type} [LinearOrder α] (z w : Cx α) :
    lexLe z w ∨ lexLe w z := by
  unfold lexLe
  rcases lt_trichotomy z.1 w.1 with h | h | h
  · exact Or.inl (Or.inl h)
  · rcases le_total z.2 w.2 with h2 | h2
    · exact Or.inl (Or.inr ⟨h, h2⟩)
    · exact Or.inr (Or.inr ⟨h.symm, h2⟩)
  · exact Or.inr (Or.inl h)

theorem lexLe_trans {α : Type} [LinearOrder α] {a b c : Cx α}
    (h1 : lexLe a b) (h2 : lexLe b c) : lexLe a c := by
  unfold lexLe at *
  rcases h1 with h1 | ⟨e1, le1⟩
  · rcases h2 with h2 | ⟨e2, _⟩
    · exact Or.inl (h1.trans h2)
    · exact Or.inl (e2 ▸ h1)
  · rcases h2 with h2 | ⟨e2, le2⟩
    · exact Or.inl (e1 ▸ h2)
    · exact Or.inr ⟨e1.trans e2, le1.trans le2⟩

/-- The real part of `lexLe`-related values is monotone. -/
theorem lexLe_re_le {α : Type} [LinearOrder α] {z w : Cx α} (h : lexLe z w) :
    re z ≤ re w := by
  rcases h with h | ⟨h, _⟩
  · exact le_of_lt h
  · exact le_of_eq h

end Cx

section Engine

variable {α : Type} [LinearOrderedField α]

/-- `np.mean(X, axis=0)`: the mean of each column. -/
def colMean {n d : ℕ} (X : Mat n d α) : Fin d → α :=
  fun j => (∑ i, X i j) / (n : α)

/-- `X - np.mean(X, axis=0)`: subtract each column's mean from the column. -/
def centerCols {n d : ℕ} (X : Mat n d α) : Mat n d α :=
  fun i j => X i j - colMean X j

/-- `np.cov(M)`: rows of `M` are variables, columns are observations; numpy
subtracts each row's mean and divides by (number of observations - 1). -/
def npCov {d N : ℕ} (M : Mat d N α) : Mat d d α :=
  fun a b =>
    (∑ t, (M a t - (∑ s, M a s) / (N : α)) * (M b t - (∑ s, M b s) / (N : α))) /
      ((N : α) - 1)

/-- Result of `np.linalg.eig`: a vector of complex eigenvalues and a complex
matrix whose column `j` is the eigenvector paired with eigenvalue `j`. -/
structure EigResult (d : ℕ) (α : Type) where
  vals : Fin d → Cx α
  vecs : Mat d d (Cx α)

/-- The `np.linalg.eig` oracle: library code that either produces an
`EigResult` or raises `LinAlgError` (modelled as `Except.error ()`). -/
abbrev EigSolver (d : ℕ) (α : Type) := Mat d d α → Except Unit (EigResult d α)

/-- The error taxonomy of the specification.  `linAlgError` is the exception
`np.linalg.eig` itself can raise; the other three are the validation failures
the specification names. -/
inductive VizError : Type
  | linAlgError
  | invalidPerplexity
  | insufficientSamples
  | nonFiniteInput
deriving DecidableEq

/-- `eigenvalues.argsort()`: the indices `0..d-1` reordered so that the values
come in ascending order (numpy orders complex values lexicographically; its
tie order is unspecified, modelled here by a stable insertion sort). -/
def argsortAsc {d : ℕ} [LinearOrder α] (vals : Fin d → Cx α) : List (Fin d) :=
  (List.finRange d).insertionSort (fun a b => Cx.lexLe (vals a) (vals b))

/-- `eigenvalues.argsort()[::-1]`: ditto, descending. -/
def argsortDesc {d : ℕ} (vals : Fin d → Cx α) : List (Fin d) :=
  (argsortAsc vals).reverse

/-- `vecs[:, idx][:, :k]`: keep the columns listed in `idx`, in that order,
then keep the first `k` of them.  (For `k ≤ d` the out-of-range branch is
unreachable; numpy would instead silently truncate the slice.) -/
def selectCols {d : ℕ} (vecs : Mat d d (Cx α)) (idx : List (Fin d)) (k : ℕ) :
    Mat d k (Cx α) :=
  fun i j =>
    match idx.get? j.val with
    | some l => vecs i l
    | none => (0, 0)

namespace SimplePCA

/-- `np.cov(X_centered.T)`: the matrix handed to `np.linalg.eig`. -/
def covOf {n d : ℕ} (X : Mat n d α) : Mat d d α :=
  npCov (fun a t => centerCols X t a)

/-- `X_centered @ self.components` followed by `.real`: the centered (real)
matrix is upcast to complex, multiplied by the selected eigenvector columns,
and the real part of the product is kept. -/
def transformReal {n d k : ℕ} (Xc : Mat n d α) (C : Mat d k (Cx α)) :
    Mat n k α :=
  fun i j => Cx.re (∑ t, Cx.mul (Cx.ofReal (Xc i t)) (C t j))

/-- The arithmetic of `SimplePCA.fit_transform` after the eigensolver call:
sort the eigenpairs by descending eigenvalue, keep the first `n_components`
eigenvectors, project the centered data onto them, keep the real part. -/
def coreT {n d : ℕ} (X : Mat n d α) (r : EigResult d α) (k : ℕ) : Mat n k α :=
  transformReal (centerCols X) (selectCols r.vecs (argsortDesc r.vals) k)

/-- `SimplePCA(n_components=k).fit_transform(X)`. `eig` is the
`np.linalg.eig` oracle; its exception propagates, and no other failure path
exists in the source. -/
def fit_transform {n d : ℕ} (eig : EigSolver d α) (k : ℕ) (X : Mat n d α) :
    Except VizError (Mat n k α) :=
  match eig (covOf X) with
  | Except.error _ => Except.error VizError.linAlgError
  | Except.ok r => Except.ok (coreT X r k)

end SimplePCA

theorem Cx.re_sum {β : Type} {s : Finset β} (f : β → Cx α) :
    Cx.re (∑ t ∈ s, f t) = ∑ t ∈ s, Cx.re (f t) := by
  classical
  induction s using Finset.cons_induction with
  | empty => simp [Cx.re]
  | cons a s ha ih =>
    rw [Finset.sum_cons, Finset.sum_cons, ← ih]
    exact Prod.fst_add _ _

theorem transformReal_eq {n d k : ℕ} (Xc : Mat n d α) (C : Mat d k (Cx α)) :
    SimplePCA.transformReal Xc C =
      fun i j => ∑ t, Xc i t * Cx.re (C t j) := by
  funext i j
  simp only [SimplePCA.transformReal, Cx.re_sum]
  refine Finset.sum_congr rfl fun t _ => ?_
  simp [Cx.mul, Cx.ofReal, Cx.re]

theorem sum_centerCols {n d : ℕ} (hn : (n : α) ≠ 0) (X : Mat n d α)
    (j : Fin d) : ∑ i, centerCols X i j = 0 := by
  simp only [centerCols, colMean, Finset.sum_sub_distrib, Finset.sum_const,
    Finset.card_univ, Fintype.card_fin, nsmul_eq_mul]
  field_simp

theorem covOf_eq {n d : ℕ} (hn : (n : α) ≠ 0) (X : Mat n d α) :
    SimplePCA.covOf X =
      fun a b => (∑ i, centerCols X i a * centerCols X i b) / ((n : α) - 1) := by
  funext a b
  simp only [SimplePCA.covOf, npCov, sum_centerCols hn, zero_div, sub_zero]

theorem argsortDesc_perm {d : ℕ} (vals : Fin d → Cx α) :
    List.Perm (argsortDesc vals) (List.finRange d) :=
  (List.reverse_perm _).trans (List.perm_insertionSort _ _)

theorem argsortDesc_sorted {d : ℕ} (vals : Fin d → Cx α) :
    List.Pairwise (fun a b => Cx.re (vals b) ≤ Cx.re (vals a))
      (argsortDesc vals) := by
  haveI : IsTotal (Fin d) (fun a b => Cx.lexLe (vals a) (vals b)) :=
    ⟨fun a b => Cx.lexLe_total _ _⟩
  haveI : IsTrans (Fin d) (fun a b => Cx.lexLe (vals a) (vals b)) :=
    ⟨fun _ _ _ h1 h2 => Cx.lexLe_trans h1 h2⟩
  have hs : List.Pairwise (fun a b => Cx.lexLe (vals a) (vals b))
      (argsortAsc vals) := List.sorted_insertionSort _ _
  unfold argsortDesc
  rw [List.pairwise_reverse]
  exact hs.imp fun h => Cx.lexLe_re_le h

/-- C2.  For every `N×D` input `X` with `N ≥ 2` and every `k` with
`1 ≤ k ≤ D`, `SimplePCA.fit_transform` equals the column-mean-centered `X`
multiplied by the `k` eigenvectors belonging to the largest eigenvalues of
the covariance matrix of the centered data (the eigensolver is queried on
exactly that covariance matrix), the eigenpairs being sorted by eigenvalue
descending, and only the real part of the product is returned. -/
theorem pca_matches_eigendecomposition_spec {n d : ℕ} (k : ℕ)
    (hn : 2 ≤ n) (hk1 : 1 ≤ k) (hkd : k ≤ d)
    (X : Mat n d α) (eig : EigSolver d α) (r : EigResult d α)
    (hr : eig (SimplePCA.covOf X) = Except.ok r)
    (hreal : ∀ i, Cx.im (r.vals i) = 0) :
    SimplePCA.covOf X =
      (fun a b => (∑ i, centerCols X i a * centerCols X i b) / ((n : α) - 1)) ∧
    List.Perm (argsortDesc r.vals) (List.finRange d) ∧
    List.Pairwise (fun a b => Cx.re (r.vals b) ≤ Cx.re (r.vals a))
      (argsortDesc r.vals) ∧
    SimplePCA.fit_transform eig k X =
      Except.ok (fun i j =>
        ∑ t, centerCols X i t *
          Cx.re (selectCols r.vecs (argsortDesc r.vals) k t j)) := by
  have hn0 : (n : α) ≠ 0 := by
    have : n ≠ 0 := by omega
    exact_mod_cast Nat.cast_ne_zero.mpr this
  refine ⟨covOf_eq hn0 X, argsortDesc_perm r.vals, argsortDesc_sorted r.vals, ?_⟩
  simp only [SimplePCA.fit_transform, hr, Except.ok.injEq]
  rw [SimplePCA.coreT, transformReal_eq]

/-- A concrete 2×1 rational input matrix, used to instantiate theorems with
hypotheses at an explicit input. -/
def Xw : Mat 2 1 ℚ := fun i _ => if i.val = 0 then 0 else 1

/-- A concrete eigensolver oracle for 1×1 matrices (eigenvalue 1 with
eigenvector 1, both purely real), used in witnesses. -/
def eigW : EigSolver 1 ℚ := fun _ => Except.ok ⟨fun _ => (1, 0), fun _ _ => (1, 0)⟩

/-- The `EigResult` that `eigW` returns. -/
def rW : EigResult 1 ℚ := ⟨fun _ => (1, 0), fun _ _ => (1, 0)⟩

/-- C2 witness: a concrete instantiation of the hypotheses of
`pca_matches_eigendecomposition_spec`. -/
theorem pca_matches_eigendecomposition_spec_witness :
    (2 ≤ 2 ∧ 1 ≤ 1 ∧ 1 ≤ 1 ∧ eigW (SimplePCA.covOf Xw) = Except.ok rW ∧
      (∀ i, Cx.im (rW.vals i) = 0)) ∧
    SimplePCA.fit_transform eigW 1 Xw =
      Except.ok (fun i j =>
        ∑ t, centerCols Xw i t *
          Cx.re (selectCols rW.vecs (argsortDesc rW.vals) 1 t j)) := by
  refine ⟨⟨by norm_num, by norm_num, by norm_num, rfl, fun _ => rfl⟩, ?_⟩
  exact (pca_matches_eigendecomposition_spec (α := ℚ) 1 (by norm_num) (by norm_num)
    (by norm_num) Xw eigW rW rfl (fun _ => rfl)).2.2.2

/-- C6.  Adding the same constant row vector to every row of the input
leaves the PCA output unchanged (column-mean centering removes any uniform
translation); in the exact-arithmetic model the outputs are identical. -/
theorem pca_translation_invariant {n d : ℕ} (hn : 0 < n)
    (X : Mat n d α) (c : Fin d → α) (eig : EigSolver d α) (k : ℕ) :
    SimplePCA.fit_transform eig k (fun i j => X i j + c j) =
      SimplePCA.fit_transform eig k X := by
  have hn0 : (n : α) ≠ 0 := by
    have : n ≠ 0 := by omega
    exact_mod_cast Nat.cast_ne_zero.mpr this
  have hc : centerCols (fun i j => X i j + c j) = centerCols X := by
    funext i j
    simp only [centerCols, colMean, Finset.sum_add_distrib, Finset.sum_const,
      Finset.card_univ, Fintype.card_fin, nsmul_eq_mul]
    have : ((n : α) * c j) / (n : α) = c j := by field_simp
    rw [add_div, this]
    ring
  unfold SimplePCA.fit_transform SimplePCA.covOf SimplePCA.coreT
  rw [hc]

/-- C6 witness: a concrete instantiation of `pca_translation_invariant`. -/
theorem pca_translation_invariant_witness :
    0 < 2 ∧
    SimplePCA.fit_transform eigW 1 (fun i j => Xw i j + 3) =
      SimplePCA.fit_transform eigW 1 Xw :=
  ⟨by norm_num, pca_translation_invariant (by norm_num) Xw (fun _ => 3) eigW 1⟩

namespace SimpleTSNE

/-- The squared-distance matrix
`D = sum_X[:, None] + sum_X[None, :] - 2 * X @ X.T`, then `np.maximum(D, 0)`. -/
def sqDistances {n d : ℕ} (X : Mat n d α) : Mat n n α :=
  fun i j =>
    max ((∑ t, X i t ^ 2) + (∑ t, X j t ^ 2) - 2 * ∑ t, X i t * X j t) 0

/-- The indices `np.concatenate((np.arange(i), np.arange(i+1, n)))`: all row
indices except `i`, in ascending order. -/
def others (n : ℕ) (i : Fin n) : List (Fin n) :=
  (List.finRange n).filter (fun j => j ≠ i)

/-- `Di = D[i, others]`: row `i` of the distance matrix without its diagonal
entry. -/
def rowDi {n : ℕ} (D : Mat n n α) (i : Fin n) : List α :=
  (others n i).map (fun j => D i j)

/-- State of the per-point binary search for the precision `beta[i]`.
`beta`, `betaMin`, `betaMax` are the Python variables (`none` models the
`-np.inf` / `np.inf` unbounded bracket sides); `expD`, `sumExp` hold the
`exp_D` and `sum_exp` of the most recent entropy evaluation and `lastBeta`
the `beta` at which they were computed; `done` records that the `break` was
taken and `steps` counts the entropy evaluations performed. -/
structure BetaState (α : Type) where
  beta : α
  betaMin : Option α
  betaMax : Option α
  expD : List α
  sumExp : α
  lastBeta : α
  done : Bool
  steps : ℕ

/-- `np.exp(-Di * beta)` elementwise. -/
def evalExpD (expf : α → α) (Di : List α) (β : α) : List α :=
  Di.map (fun x => expf (-(x * β)))

/-- The entropy `H = np.log(sum_exp) + beta * np.sum(Di * exp_D) / sum_exp`
of the conditional distribution at precision `β`. -/
def evalH (expf logf : α → α) (Di : List α) (β : α) : α :=
  let expD := evalExpD expf Di β
  logf expD.sum + β * (List.zipWith (fun a b => a * b) Di expD).sum / expD.sum

/-- One iteration of the 50-step loop of
`SimpleTSNE._compute_joint_probabilities`: if the `break` was already taken
the state is unchanged; otherwise evaluate the entropy at the current `beta`,
stop if it is within `1e-5` of `log(perplexity)`, and otherwise move the
bracket and double / halve / bisect `beta` exactly as the source does. -/
def betaStep (expf logf : α → α) (Di : List α) (logPerp : α)
    (s : BetaState α) : BetaState α :=
  if s.done then s
  else
    let expD := evalExpD expf Di s.beta
    let sumExp := expD.sum
    let Hdiff := evalH expf logf Di s.beta - logPerp
    if |Hdiff| < 1 / 100000 then
      { s with expD := expD, sumExp := sumExp, lastBeta := s.beta,
               done := true, steps := s.steps + 1 }
    else if 0 < Hdiff then
      match s.betaMax with
      | none =>
          { beta := s.beta * 2, betaMin := some s.beta, betaMax := none,
            expD := expD, sumExp := sumExp, lastBeta := s.beta,
            done := false, steps := s.steps + 1 }
      | some bMax =>
          { beta := (s.beta + bMax) / 2, betaMin := some s.beta,
            betaMax := some bMax, expD := expD, sumExp := sumExp,
            lastBeta := s.beta, done := false, steps := s.steps + 1 }
    else
      match s.betaMin with
      | none =>
          { beta := s.beta / 2, betaMin := none, betaMax := some s.beta,
            expD := expD, sumExp := sumExp, lastBeta := s.beta,
            done := false, steps := s.steps + 1 }
      | some bMin =>
          { beta := (s.beta + bMin) / 2, betaMin := some bMin,
            betaMax := some s.beta, expD := expD, sumExp := sumExp,
            lastBeta := s.beta, done := false, steps := s.steps + 1 }

/-- The state on entry of the loop: `beta[i] = 1` (`np.ones`), unbounded
bracket, no evaluation performed yet. -/
def betaInit : BetaState α :=
  { beta := 1, betaMin := none, betaMax := none, expD := [], sumExp := 0,
    lastBeta := 1, done := false, steps := 0 }

/-- The search state after `m` of the 50 loop iterations. -/
def betaRun (expf logf : α → α) (Di : List α) (logPerp : α) (m : ℕ) :
    BetaState α :=
  (betaStep expf logf Di logPerp)^[m] betaInit

/-- The finished search for row `i`: 50 iterations on `Di = D[i, others]`
against `np.log(self.perplexity)`. -/
def rowState (expf logf : α → α) (perp : α) {n : ℕ} (D : Mat n n α)
    (i : Fin n) : BetaState α :=
  betaRun expf logf (rowDi D i) (logf perp) 50

/-- The conditional-probability matrix after the per-row searches:
`P[i, others] = exp_D / sum_exp` (the diagonal is never written and keeps its
`np.zeros` value). -/
def condP (expf logf : α → α) (perp : α) {n : ℕ} (D : Mat n n α) : Mat n n α :=
  fun i j =>
    if j = i then 0
    else
      let s := rowState expf logf perp D i
      s.expD.getD ((others n i).indexOf j) 0 / s.sumExp

/-- The symmetrization `P = (P + P.T) / (2 * n_samples)`. -/
def symP (expf logf : α → α) (perp : α) {n : ℕ} (D : Mat n n α) : Mat n n α :=
  fun i j =>
    (condP expf logf perp D i j + condP expf logf perp D j i) / (2 * (n : α))

/-- The affinity matrix returned by
`SimpleTSNE._compute_joint_probabilities`: the symmetrized matrix with every
entry floored at `1e-12` (`np.maximum(P, 1e-12)`). -/
def jointP (expf logf : α → α) (perp : α) {n : ℕ} (D : Mat n n α) : Mat n n α :=
  fun i j => max (symP expf logf perp D i j) (1 / 10 ^ 12)

/-- `num`: the unnormalized low-dimensional affinities
`1/(1 + ||y_i - y_j||²)` with the diagonal zeroed by `np.fill_diagonal`. -/
def qNum {n k : ℕ} (Y : Mat n k α) : Mat n n α :=
  fun i j =>
    if i = j then 0
    else 1 / (1 + (∑ t, Y i t ^ 2) + (∑ t, Y j t ^ 2) - 2 * ∑ t, Y i t * Y j t)

/-- `Q = np.maximum(num / np.sum(num), 1e-12)`. -/
def qMat {n k : ℕ} (Y : Mat n k α) : Mat n n α :=
  fun i j => max (qNum Y i j / ∑ a, ∑ b, qNum Y a b) (1 / 10 ^ 12)

/-- The gradient:
`grad[j] = 4 * np.sum((PQ[j] * num[j])[:, None] * (Y[j] - Y), axis=0)`
with `PQ = P - Q`. -/
def gradient {n k : ℕ} (P : Mat n n α) (Y : Mat n k α) : Mat n k α :=
  fun j t => 4 * ∑ l, (P j l - qMat Y j l) * qNum Y j l * (Y j t - Y l t)

/-- The mutable state of the optimization loop: the layout `Y`, the previous
update `Y_prev` (the velocity) and the current momentum coefficient. -/
structure LoopState (n k : ℕ) (α : Type) where
  Y : Mat n k α
  Yprev : Mat n k α
  momentum : α

/-- One iteration (index `i`) of the gradient-descent loop:
`Y_update = momentum * Y_prev - lr * grad` with `lr = 200.0`, `Y += Y_update`,
`Y_prev = Y_update`, and the momentum switches from `0.5` to `0.8` at the end
of the iteration with `i == 250`. -/
def loopStep {n k : ℕ} (P : Mat n n α) (i : ℕ) (s : LoopState n k α) :
    LoopState n k α :=
  let g := gradient P s.Y
  let upd : Mat n k α := fun a b => s.momentum * s.Yprev a b - 200 * g a b
  { Y := fun a b => s.Y a b + upd a b,
    Yprev := upd,
    momentum := if i = 250 then 4 / 5 else s.momentum }

/-- The loop state after `m` iterations, starting from the (already scaled)
initial layout `Y0`, `Y_prev = np.zeros_like(Y)` and momentum `0.5`. -/
def loopStateAt {n k : ℕ} (P : Mat n n α) (Y0 : Mat n k α) : ℕ → LoopState n k α
  | 0 => { Y := Y0, Yprev := fun _ _ => 0, momentum := 1 / 2 }
  | m + 1 => loopStep P m (loopStateAt P Y0 m)

/-- The numeric core of `SimpleTSNE.fit_transform` after the PCA warm start
`Y0`: scale `Y0` by `0.0001`, build the distance and affinity matrices, run
`n_iter` gradient-descent iterations and return the final `Y`. -/
def fitCore (expf logf : α → α) (perp : α) (iters : ℕ) {n d k : ℕ}
    (X : Mat n d α) (Y0 : Mat n k α) : Mat n k α :=
  let P := jointP expf logf perp (sqDistances X)
  (loopStateAt P (fun a b => Y0 a b * (1 / 10 ^ 4)) iters).Y

/-- `SimpleTSNE.fit_transform(X)`: PCA warm start (whose eigensolver
exception is the sole failure path), then the numeric core. -/
def fit_transform (expf logf : α → α) (eig : EigSolver d α) (k : ℕ)
    (perp : α) (iters : ℕ) {n : ℕ} (X : Mat n d α) :
    Except VizError (Mat n k α) :=
  match SimplePCA.fit_transform eig k X with
  | Except.error e => Except.error e
  | Except.ok Y0 => Except.ok (fitCore expf logf perp iters X Y0)

end SimpleTSNE

/-- The state of NumPy's process-wide random generator, abstractly.
`np.random.seed(s)` replaces it by a state determined by `s` alone. -/
def npSeedState (seed : ℕ) : ℕ := seed

/-- A complete `embed` call:
`SimpleTSNE(n_components=k, perplexity=perp, n_iter=iters, random_state=seed)`
followed by `.fit_transform(X)`, threading NumPy's global generator state:
the constructor executes `np.random.seed(random_state)`, and nothing in
`fit_transform` reads or writes the generator. -/
def embedCall (expf logf : α → α) (eig : EigSolver d α) (k : ℕ) (perp : α)
    (iters : ℕ) (seed : ℕ) {n : ℕ} (X : Mat n d α) (rng : ℕ) :
    Except VizError (Mat n k α) × ℕ :=
  (SimpleTSNE.fit_transform expf logf eig k perp iters X, npSeedState seed)

/-- A complete standalone `project` call:
`SimplePCA(n_components=k).fit_transform(X)`; it touches no global state, so
the generator state passes through unchanged. -/
def projectCall (eig : EigSolver d α) (k : ℕ) {n : ℕ} (X : Mat n d α)
    (rng : ℕ) : Except VizError (Mat n k α) × ℕ :=
  (SimplePCA.fit_transform eig k X, rng)

/-- A concrete `np.exp` stand-in over `ℚ` (only its value at the arguments a
witness exercises matters; it maps `0` to `1` like the real exponential). -/
def expW : ℚ → ℚ := fun x => x + 1

/-- A concrete `np.log` stand-in over `ℚ` (it maps `1` to `1`, so a
perplexity of `1` gives target entropy `1`). -/
def logW : ℚ → ℚ := fun x => x

/-- A concrete 2×1 all-zero input matrix (two duplicate points). -/
def X0 : Mat 2 1 ℚ := fun _ _ => 0

/-- C5.  Calling `embed` twice with identical input matrix, target
dimension, perplexity, iteration count and seed yields identical output
matrices; the second call runs from the generator state the first call left
behind, and no generator state influences the result at all. -/
theorem embed_two_run_deterministic {n d : ℕ} (expf logf : α → α)
    (eig : EigSolver d α) (k : ℕ) (perp : α) (iters seed : ℕ)
    (X : Mat n d α) (rng0 : ℕ) :
    (embedCall expf logf eig k perp iters seed X rng0).1 =
      (embedCall expf logf eig k perp iters seed X
        (embedCall expf logf eig k perp iters seed X rng0).2).1 ∧
    ∀ rng rng' : ℕ,
      (embedCall expf logf eig k perp iters seed X rng).1 =
        (embedCall expf logf eig k perp iters seed X rng').1 :=
  ⟨rfl, fun _ _ => rfl⟩

/-- C10.  The `random_state` seed has no influence whatsoever on the output
of `embed`: two calls that differ only in the seed return the same matrix
(the constructor seeds NumPy's generator, but no pseudo-random draw is ever
consumed — the initial layout comes deterministically from PCA). -/
theorem embed_seed_has_no_influence {n d : ℕ} (expf logf : α → α)
    (eig : EigSolver d α) (k : ℕ) (perp : α) (iters : ℕ) (s1 s2 : ℕ)
    (X : Mat n d α) (rng : ℕ) :
    (embedCall expf logf eig k perp iters s1 X rng).1 =
      (embedCall expf logf eig k perp iters s2 X rng).1 :=
  rfl

/-- C9 (amended).  `project` is pure: it neither reads nor writes the global
generator state, and its output is independent of it.  `embed` never reads
global state either — its output is independent of the incoming generator
state — but its constructor overwrites NumPy's process-wide generator via
`np.random.seed(random_state)`. -/
theorem engine_global_state_effects {n d : ℕ} (expf logf : α → α)
    (eig : EigSolver d α) (k : ℕ) (perp : α) (iters seed : ℕ)
    (X : Mat n d α) :
    (∀ rng, (projectCall eig k X rng).2 = rng) ∧
    (∀ rng rng',
      (projectCall eig k X rng).1 = (projectCall eig k X rng').1) ∧
    (∀ rng,
      (embedCall expf logf eig k perp iters seed X rng).2 = npSeedState seed) ∧
    (∀ rng rng',
      (embedCall expf logf eig k perp iters seed X rng).1 =
        (embedCall expf logf eig k perp iters seed X rng').1) :=
  ⟨fun _ => rfl, fun _ _ => rfl, fun _ => rfl, fun _ _ => rfl⟩

/-- C9 counterexample:  an `embed` call entered with generator state `7`
leaves the generator in a different state (the one `np.random.seed(42)`
installs), so the engine does mutate process-wide state. -/
theorem embed_mutates_global_rng_counterexample :
    (embedCall expW logW eigW 1 5 0 42 Xw 7).2 ≠ 7 := by decide

/-- `np.array` materialization of a typed matrix: the list of its rows. -/
def toLists {n k : ℕ} (M : Mat n k α) : List (List α) :=
  (List.finRange n).map (fun i => (List.finRange k).map (fun j => M i j))

/-- C8.  On a valid input (`N ≥ 2`, `1 ≤ k ≤ D`), whatever matrix `project`
or `embed` returns has exactly `N` rows, each of length `k` — never another
shape, never truncated rows. -/
theorem projection_embedding_output_shape {n d : ℕ} (k : ℕ) (hn : 2 ≤ n)
    (hk1 : 1 ≤ k) (hkd : k ≤ d) (expf logf : α → α) (eig : EigSolver d α)
    (perp : α) (iters : ℕ) (X : Mat n d α) (Mp Me : Mat n k α)
    (hp : SimplePCA.fit_transform eig k X = Except.ok Mp)
    (he : SimpleTSNE.fit_transform expf logf eig k perp iters X = Except.ok Me) :
    (toLists Mp).length = n ∧ (∀ row ∈ toLists Mp, row.length = k) ∧
    (toLists Me).length = n ∧ (∀ row ∈ toLists Me, row.length = k) := by
  refine ⟨by simp [toLists], fun row hrow => ?_, by simp [toLists],
    fun row hrow => ?_⟩ <;>
  · rw [toLists, List.mem_map] at hrow
    obtain ⟨i, _, hi⟩ := hrow
    rw [← hi]
    simp

/-- C8 witness: a concrete instantiation of
`projection_embedding_output_shape` (with `iters = 0` the embedded output is
the scaled warm start; both calls succeed by computation). -/
theorem projection_embedding_output_shape_witness :
    (2 ≤ 2 ∧ 1 ≤ 1 ∧ 1 ≤ 1 ∧
      SimplePCA.fit_transform eigW 1 Xw = Except.ok (SimplePCA.coreT Xw rW 1) ∧
      SimpleTSNE.fit_transform expW logW eigW 1 5 0 Xw =
        Except.ok (SimpleTSNE.fitCore expW logW 5 0 Xw (SimplePCA.coreT Xw rW 1))) ∧
    ((toLists (SimplePCA.coreT Xw rW 1)).length = 2 ∧
      (∀ row ∈ toLists (SimplePCA.coreT Xw rW 1), row.length = 1) ∧
      (toLists (SimpleTSNE.fitCore expW logW 5 0 Xw (SimplePCA.coreT Xw rW 1))).length = 2 ∧
      (∀ row ∈ toLists (SimpleTSNE.fitCore expW logW 5 0 Xw (SimplePCA.coreT Xw rW 1)),
        row.length = 1)) :=
  ⟨⟨by norm_num, by norm_num, by norm_num, rfl, rfl⟩,
    projection_embedding_output_shape 1 (by norm_num) (by norm_num) (by norm_num)
      expW logW eigW 5 0 Xw _ _ rfl rfl⟩

/-- C1 (amended).  The source performs no input validation at all: whatever
the arguments, neither `embed` nor `project` ever returns
`InvalidPerplexity`, `InsufficientSamples` or `NonFiniteInput` (the only
failure that can propagate is the eigensolver's own `LinAlgError`), and in
particular a call with `perplexity ≥ N` on which the eigensolver succeeds
completes normally and returns a full matrix — the entropy search merely
fails to converge and keeps its last `beta`. -/
theorem engine_performs_no_validation {n d : ℕ} (expf logf : α → α)
    (eig : EigSolver d α) (k : ℕ) (perp : α) (iters seed : ℕ)
    (X : Mat n d α) (rng : ℕ) :
    (embedCall expf logf eig k perp iters seed X rng).1 ≠
      Except.error VizError.invalidPerplexity ∧
    (embedCall expf logf eig k perp iters seed X rng).1 ≠
      Except.error VizError.insufficientSamples ∧
    (embedCall expf logf eig k perp iters seed X rng).1 ≠
      Except.error VizError.nonFiniteInput ∧
    (projectCall eig k X rng).1 ≠ Except.error VizError.invalidPerplexity ∧
    (projectCall eig k X rng).1 ≠ Except.error VizError.insufficientSamples ∧
    (projectCall eig k X rng).1 ≠ Except.error VizError.nonFiniteInput ∧
    ((n : α) ≤ perp → ∀ r, eig (SimplePCA.covOf X) = Except.ok r →
      (embedCall expf logf eig k perp iters seed X rng).1 =
        Except.ok (SimpleTSNE.fitCore expf logf perp iters X
          (SimplePCA.coreT X r k))) := by
  cases h : eig (SimplePCA.covOf X) with
  | error e =>
    refine ⟨?_, ?_, ?_, ?_, ?_, ?_, fun _ r hr => Except.noConfusion hr⟩ <;>
      simp [embedCall, projectCall, SimpleTSNE.fit_transform,
        SimplePCA.fit_transform, h]
  | ok r =>
    refine ⟨?_, ?_, ?_, ?_, ?_, ?_, fun _ r' hr' => ?_⟩ <;>
      simp_all [embedCall, projectCall, SimpleTSNE.fit_transform,
        SimplePCA.fit_transform, h]

/-- C1 witness: a concrete instantiation of `engine_performs_no_validation`
with `perplexity = 5 ≥ N = 2`. -/
theorem engine_performs_no_validation_witness :
    ((2 : ℚ) ≤ 5 ∧ eigW (SimplePCA.covOf Xw) = Except.ok rW) ∧
    (embedCall expW logW eigW 1 5 0 42 Xw 0).1 =
      Except.ok (SimpleTSNE.fitCore expW logW 5 0 Xw (SimplePCA.coreT Xw rW 1)) :=
  ⟨⟨by norm_num, rfl⟩,
    (engine_performs_no_validation expW logW eigW 1 5 0 42 Xw 0).2.2.2.2.2.2
      (by norm_num) rW rfl⟩

/-- C1 counterexample:  a call with `perplexity = 5 ≥ N = 2` does not fail
with `InvalidPerplexity` (it completes and returns a matrix), so the claimed
eager validation does not exist in the code. -/
theorem validation_missing_counterexample :
    (2 : ℚ) ≤ 5 ∧
    (embedCall expW logW eigW 1 5 0 42 Xw 0).1 ≠
      Except.error VizError.invalidPerplexity :=
  ⟨by norm_num, fun h => Except.noConfusion h⟩

theorem loopStateAt_momentum {n k : ℕ} (P : Mat n n α) (Y0 : Mat n k α)
    (m : ℕ) :
    (SimpleTSNE.loopStateAt P Y0 m).momentum =
      if 251 ≤ m then 4 / 5 else 1 / 2 := by
  induction m with
  | zero => rfl
  | succ m ih =>
    have hstep : (SimpleTSNE.loopStateAt P Y0 (m + 1)).momentum =
        if m = 250 then 4 / 5
        else (SimpleTSNE.loopStateAt P Y0 m).momentum := rfl
    rw [hstep, ih]
    by_cases h : m = 250
    · subst h; norm_num
    · rw [if_neg h]
      by_cases h2 : 251 ≤ m
      · rw [if_pos h2, if_pos (by omega)]
      · rw [if_neg h2, if_neg (by omega)]

/-- C7 (amended).  The momentum coefficient of the optimization loop run by
`embed` starts at `0.5` and switches to `0.8` after the iteration with index
`250` — a fixed absolute threshold, independent of the `n_iter` parameter
(not a fixed fraction of it); consequently a run with `n_iter ≤ 250` keeps
the low momentum for its entire duration. -/
theorem momentum_schedule_fixed_absolute_threshold {n d k : ℕ}
    (expf logf : α → α) (perp : α) (iters : ℕ) (X : Mat n d α)
    (Y0 : Mat n k α) :
    SimpleTSNE.fitCore expf logf perp iters X Y0 =
      (SimpleTSNE.loopStateAt (SimpleTSNE.jointP expf logf perp (SimpleTSNE.sqDistances X))
        (fun a b => Y0 a b * (1 / 10 ^ 4)) iters).Y ∧
    (∀ P : Mat n n α, ∀ Z0 : Mat n k α, ∀ m,
      (SimpleTSNE.loopStateAt P Z0 m).momentum =
        if 251 ≤ m then 4 / 5 else 1 / 2) ∧
    (∀ P : Mat n n α, ∀ Z0 : Mat n k α, ∀ iters0, iters0 ≤ 250 → ∀ m, m ≤ iters0 →
      (SimpleTSNE.loopStateAt P Z0 m).momentum = 1 / 2) := by
  refine ⟨rfl, fun P Z0 m => loopStateAt_momentum P Z0 m,
    fun P Z0 iters0 h250 m hm => ?_⟩
  rw [loopStateAt_momentum, if_neg (by omega)]

/-- A concrete 1×1 affinity matrix and layout for exercising the loop. -/
def P1 : Mat 1 1 ℚ := fun _ _ => 0

/-- A concrete 1×1 initial layout. -/
def Y1 : Mat 1 1 ℚ := fun _ _ => 0

/-- C7 witness: a concrete instantiation of
`momentum_schedule_fixed_absolute_threshold`. -/
theorem momentum_schedule_fixed_absolute_threshold_witness :
    (100 ≤ 250 ∧ 100 ≤ 100) ∧
    (SimpleTSNE.loopStateAt P1 Y1 100).momentum = 1 / 2 :=
  ⟨⟨by norm_num, le_refl 100⟩,
    (momentum_schedule_fixed_absolute_threshold expW logW 5 0 P1 Y1).2.2
      P1 Y1 100 (by norm_num) 100 (le_refl 100)⟩

/-- C7 counterexample:  in a run with `iterations = 100` the momentum never
switches — it is still at its low value `1/2 < 4/5` after all 100
iterations, contradicting a switch after a fixed fraction of every total. -/
theorem momentum_no_switch_short_run_counterexample :
    (SimpleTSNE.loopStateAt P1 Y1 100).momentum = 1 / 2 ∧ (1 : ℚ) / 2 < 4 / 5 :=
  ⟨by rw [loopStateAt_momentum]; norm_num, by norm_num⟩

/-- The convergence test of the entropy search: the entropy at precision `β`
is within `1e-5` of `log(perplexity)`. -/
def withinTol (expf logf : α → α) (Di : List α) (logPerp β : α) : Prop :=
  |SimpleTSNE.evalH expf logf Di β - logPerp| < 1 / 100000

instance {expf logf : α → α} {Di : List α} {logPerp β : α} :
    Decidable (withinTol expf logf Di logPerp β) := by
  unfold withinTol
  infer_instance

/-- The bracket update described by the specification: while the relevant
side of the bracket is still unbounded, `β` is doubled (entropy above
target) or halved (entropy below target); once the side is finite, the new
`β` is the midpoint of `β` and that side. -/
def specNextBeta (β : α) (bMin bMax : Option α) (entropyTooHigh : Bool) : α :=
  if entropyTooHigh then
    match bMax with
    | none => β * 2
    | some b => (β + b) / 2
  else
    match bMin with
    | none => β / 2
    | some b => (β + b) / 2

theorem betaStep_of_done {expf logf : α → α} {Di : List α} {logPerp : α}
    {s : SimpleTSNE.BetaState α} (h : s.done = true) :
    SimpleTSNE.betaStep expf logf Di logPerp s = s := by
  unfold SimpleTSNE.betaStep
  rw [if_pos h]

theorem betaStep_hit {expf logf : α → α} {Di : List α} {logPerp : α}
    {s : SimpleTSNE.BetaState α} (h : s.done = false)
    (hhit : withinTol expf logf Di logPerp s.beta) :
    SimpleTSNE.betaStep expf logf Di logPerp s =
      { s with expD := SimpleTSNE.evalExpD expf Di s.beta,
               sumExp := (SimpleTSNE.evalExpD expf Di s.beta).sum,
               lastBeta := s.beta, done := true, steps := s.steps + 1 } := by
  unfold SimpleTSNE.betaStep
  rw [if_neg (by simp [h])]
  dsimp only
  rw [if_pos (show |SimpleTSNE.evalH expf logf Di s.beta - logPerp| <
    1 / 100000 from hhit)]

theorem betaStep_miss {expf logf : α → α} {Di : List α} {logPerp : α}
    {s : SimpleTSNE.BetaState α} (h : s.done = false)
    (hmiss : ¬ withinTol expf logf Di logPerp s.beta) :
    SimpleTSNE.betaStep expf logf Di logPerp s =
      { beta := specNextBeta s.beta s.betaMin s.betaMax
          (decide (0 < SimpleTSNE.evalH expf logf Di s.beta - logPerp)),
        betaMin :=
          if 0 < SimpleTSNE.evalH expf logf Di s.beta - logPerp
          then some s.beta else s.betaMin,
        betaMax :=
          if 0 < SimpleTSNE.evalH expf logf Di s.beta - logPerp
          then s.betaMax else some s.beta,
        expD := SimpleTSNE.evalExpD expf Di s.beta,
        sumExp := (SimpleTSNE.evalExpD expf Di s.beta).sum,
        lastBeta := s.beta, done := false, steps := s.steps + 1 } := by
  unfold SimpleTSNE.betaStep
  rw [if_neg (by simp [h])]
  dsimp only
  rw [if_neg (show ¬ |SimpleTSNE.evalH expf logf Di s.beta - logPerp| <
    1 / 100000 from hmiss)]
  by_cases hd : 0 < SimpleTSNE.evalH expf logf Di s.beta - logPerp
  · rw [if_pos hd]
    cases hMax : s.betaMax <;>
      simp [specNextBeta, hd, hMax, if_pos hd]
  · rw [if_neg hd]
    cases hMin : s.betaMin <;>
      simp [specNextBeta, hd, hMin, if_neg hd]

theorem betaRun_succ (expf logf : α → α) (Di : List α) (logPerp : α) (m : ℕ) :
    SimpleTSNE.betaRun expf logf Di logPerp (m + 1) =
      SimpleTSNE.betaStep expf logf Di logPerp
        (SimpleTSNE.betaRun expf logf Di logPerp m) := by
  unfold SimpleTSNE.betaRun
  rw [Function.iterate_succ_apply']

theorem betaStep_steps_le {expf logf : α → α} {Di : List α} {logPerp : α}
    (s : SimpleTSNE.BetaState α) :
    (SimpleTSNE.betaStep expf logf Di logPerp s).steps ≤ s.steps + 1 := by
  by_cases h : s.done = true
  · rw [betaStep_of_done h]; omega
  · have h' : s.done = false := by revert h; cases s.done <;> simp
    by_cases hh : withinTol expf logf Di logPerp s.beta
    · rw [betaStep_hit h' hh]
    · rw [betaStep_miss h' hh]

theorem betaStep_steps_ge {expf logf : α → α} {Di : List α} {logPerp : α}
    (s : SimpleTSNE.BetaState α) :
    s.steps ≤ (SimpleTSNE.betaStep expf logf Di logPerp s).steps := by
  by_cases h : s.done = true
  · rw [betaStep_of_done h]
  · have h' : s.done = false := by revert h; cases s.done <;> simp
    by_cases hh : withinTol expf logf Di logPerp s.beta
    · rw [betaStep_hit h' hh]; exact Nat.le_succ _
    · rw [betaStep_miss h' hh]; exact Nat.le_succ _

theorem betaRun_steps_le (expf logf : α → α) (Di : List α) (logPerp : α)
    (m : ℕ) : (SimpleTSNE.betaRun expf logf Di logPerp m).steps ≤ m := by
  induction m with
  | zero => exact le_refl 0
  | succ m ih =>
    rw [betaRun_succ]
    exact le_trans (betaStep_steps_le _) (by omega)

theorem betaRun_steps_pos (expf logf : α → α) (Di : List α) (logPerp : α)
    (m : ℕ) (hm : 1 ≤ m) :
    1 ≤ (SimpleTSNE.betaRun expf logf Di logPerp m).steps := by
  induction m with
  | zero => omega
  | succ m ih =>
    rw [betaRun_succ]
    rcases Nat.eq_zero_or_pos m with h0 | hpos
    · subst h0
      have h' : (SimpleTSNE.betaRun expf logf Di logPerp 0).done = false := rfl
      by_cases hh : withinTol expf logf Di logPerp
          (SimpleTSNE.betaRun expf logf Di logPerp 0).beta
      · rw [betaStep_hit h' hh]
        exact Nat.le_add_left 1 _
      · rw [betaStep_miss h' hh]
        exact Nat.le_add_left 1 _
    · exact le_trans (ih hpos) (betaStep_steps_ge _)

/-- The search output invariant: from the first iteration on, `expD` and
`sumExp` are the elementwise exponentials and their sum at the recorded
`lastBeta`, and once the tolerance `break` was taken, `beta` itself is that
recorded value. -/
def searchInv (expf : α → α) (Di : List α) (s : SimpleTSNE.BetaState α) : Prop :=
  s.expD = SimpleTSNE.evalExpD expf Di s.lastBeta ∧
  s.sumExp = (SimpleTSNE.evalExpD expf Di s.lastBeta).sum ∧
  (s.done = true → s.beta = s.lastBeta)

theorem betaStep_searchInv {expf logf : α → α} {Di : List α} {logPerp : α}
    (s : SimpleTSNE.BetaState α) (h : s.done = false ∨ searchInv expf Di s) :
    searchInv expf Di (SimpleTSNE.betaStep expf logf Di logPerp s) := by
  by_cases hdone : s.done = true
  · rw [betaStep_of_done hdone]
    rcases h with h | h
    · rw [hdone] at h; cases h
    · exact h
  · have h' : s.done = false := by revert hdone; cases s.done <;> simp
    by_cases hh : withinTol expf logf Di logPerp s.beta
    · rw [betaStep_hit h' hh]
      exact ⟨rfl, rfl, fun _ => rfl⟩
    · rw [betaStep_miss h' hh]
      exact ⟨rfl, rfl, fun hc => by cases hc⟩

theorem betaRun_searchInv (expf logf : α → α) (Di : List α) (logPerp : α)
    (m : ℕ) (hm : 1 ≤ m) :
    searchInv expf Di (SimpleTSNE.betaRun expf logf Di logPerp m) := by
  induction m with
  | zero => omega
  | succ m ih =>
    rw [betaRun_succ]
    rcases Nat.eq_zero_or_pos m with h0 | hpos
    · subst h0
      exact betaStep_searchInv _ (Or.inl rfl)
    · exact betaStep_searchInv _ (Or.inr (ih hpos))

theorem betaRun_done_stable (expf logf : α → α) (Di : List α) (logPerp : α)
    (m p : ℕ) (h : (SimpleTSNE.betaRun expf logf Di logPerp m).done = true) :
    SimpleTSNE.betaRun expf logf Di logPerp (m + p) =
      SimpleTSNE.betaRun expf logf Di logPerp m := by
  induction p with
  | zero => rfl
  | succ p ih =>
    have : m + (p + 1) = (m + p) + 1 := by omega
    rw [this, betaRun_succ, ih, betaStep_of_done h]

/-- C3.  The affinity stage of `embed` runs, for each row `i` independently,
a 50-iteration binary search on the precision `beta` over the off-diagonal
distances of row `i`: a stopped search never moves again; the moment the
entropy at the current `beta` is within `1e-5` of `log(perplexity)` the
search stops at that `beta` and keeps its conditional distribution; until
then `beta` doubles (entropy above target) or halves (below) while the
corresponding bracket side is unbounded and bisects once the bracket is
finite; at most 50 (and at least one) entropy evaluations are performed; and
whether or not the tolerance was ever met, the returned numerator and
normalizer are those of the last evaluated `beta` — a non-converged search
degrades gracefully instead of failing. -/
theorem tsne_entropy_search_behavior {n d : ℕ} (expf logf : α → α)
    (perp : α) (X : Mat n d α) (i : Fin n) :
    (SimpleTSNE.rowState expf logf perp (SimpleTSNE.sqDistances X) i =
      SimpleTSNE.betaRun expf logf
        (SimpleTSNE.rowDi (SimpleTSNE.sqDistances X) i) (logf perp) 50) ∧
    ∀ (Di : List α) (logPerp : α),
      ((SimpleTSNE.betaRun expf logf Di logPerp 50).steps ≤ 50 ∧
        1 ≤ (SimpleTSNE.betaRun expf logf Di logPerp 50).steps) ∧
      (∀ s : SimpleTSNE.BetaState α, s.done = true →
        SimpleTSNE.betaStep expf logf Di logPerp s = s) ∧
      (∀ s : SimpleTSNE.BetaState α, s.done = false →
        withinTol expf logf Di logPerp s.beta →
        SimpleTSNE.betaStep expf logf Di logPerp s =
          { s with expD := SimpleTSNE.evalExpD expf Di s.beta,
                   sumExp := (SimpleTSNE.evalExpD expf Di s.beta).sum,
                   lastBeta := s.beta, done := true, steps := s.steps + 1 }) ∧
      (∀ s : SimpleTSNE.BetaState α, s.done = false →
        ¬ withinTol expf logf Di logPerp s.beta →
        (SimpleTSNE.betaStep expf logf Di logPerp s).done = false ∧
        (SimpleTSNE.betaStep expf logf Di logPerp s).beta =
          specNextBeta s.beta s.betaMin s.betaMax
            (decide (0 < SimpleTSNE.evalH expf logf Di s.beta - logPerp))) ∧
      (searchInv expf Di (SimpleTSNE.betaRun expf logf Di logPerp 50)) := by
  refine ⟨rfl, fun Di logPerp => ⟨⟨betaRun_steps_le _ _ _ _ 50,
    betaRun_steps_pos _ _ _ _ 50 (by omega)⟩,
    fun s hs => betaStep_of_done hs,
    fun s hs hhit => betaStep_hit hs hhit,
    fun s hs hmiss => ?_,
    betaRun_searchInv _ _ _ _ 50 (by omega)⟩⟩
  rw [betaStep_miss hs hmiss]
  exact ⟨rfl, rfl⟩

/-- C3 witness: concrete instantiation.  With duplicate points the distance
row is `[0]`; under the rational stand-ins the very first entropy evaluation
is within tolerance, so the search stops after one step at `beta = 1`. -/
theorem tsne_entropy_search_behavior_witness :
    ((SimpleTSNE.betaInit (α := ℚ)).done = false ∧
      withinTol expW logW [0] 1 (SimpleTSNE.betaInit (α := ℚ)).beta) ∧
    SimpleTSNE.betaStep expW logW [0] 1 (SimpleTSNE.betaInit (α := ℚ)) =
      { SimpleTSNE.betaInit (α := ℚ) with
        expD := SimpleTSNE.evalExpD expW [0] (SimpleTSNE.betaInit (α := ℚ)).beta,
        sumExp := (SimpleTSNE.evalExpD expW [0] (SimpleTSNE.betaInit (α := ℚ)).beta).sum,
        lastBeta := (SimpleTSNE.betaInit (α := ℚ)).beta, done := true,
        steps := (SimpleTSNE.betaInit (α := ℚ)).steps + 1 } :=
  ⟨⟨rfl, by norm_num [withinTol, SimpleTSNE.evalH, SimpleTSNE.evalExpD,
      SimpleTSNE.betaInit, expW, logW]⟩,
    ((tsne_entropy_search_behavior expW logW 1 X0 0).2 [0] 1).2.2.1
      (SimpleTSNE.betaInit (α := ℚ)) rfl
      (by norm_num [withinTol, SimpleTSNE.evalH, SimpleTSNE.evalExpD,
        SimpleTSNE.betaInit, expW, logW])⟩

theorem mem_others {n : ℕ} {i j : Fin n} :
    j ∈ SimpleTSNE.others n i ↔ j ≠ i := by
  simp [SimpleTSNE.others]

theorem getD_map_indexOf {γ : Type} [DecidableEq γ] (l : List γ) (g : γ → α)
    {j : γ} (hj : j ∈ l) :
    (l.map g).getD (l.indexOf j) 0 = g j := by
  have h : l.indexOf j < l.length := List.indexOf_lt_length.mpr hj
  have h2 : l.indexOf j < (l.map g).length := by simpa using h
  rw [List.getD_eq_get _ _ h2, List.get_map]
  exact congrArg g (List.indexOf_get h)

theorem sum_map_filter_eq {γ : Type} (l : List γ) (p : γ → Bool) (g : γ → α) :
    ((l.filter p).map g).sum = (l.map (fun b => if p b then g b else 0)).sum := by
  induction l with
  | nil => rfl
  | cons a l ih =>
    by_cases h : p a = true
    · simp [List.filter_cons, h, ih]
    · simp [List.filter_cons, h, ih]

theorem sum_map_others {n : ℕ} (g : Fin n → α) (i : Fin n) :
    ((SimpleTSNE.others n i).map g).sum = ∑ j ∈ Finset.univ.erase i, g j := by
  rw [SimpleTSNE.others, sum_map_filter_eq, ← Fin.sum_univ_def]
  rw [show (Finset.univ.erase i : Finset (Fin n)) =
    Finset.univ.filter (fun j => j ≠ i) from (Finset.filter_ne' _ _).symm]
  rw [Finset.sum_filter]
  refine Finset.sum_congr rfl fun j _ => ?_
  by_cases h : j = i <;> simp [h]

theorem condP_apply {n : ℕ} (expf logf : α → α) (perp : α) (D : Mat n n α)
    {i j : Fin n} (hij : j ≠ i) :
    SimpleTSNE.condP expf logf perp D i j =
      expf (-(D i j * (SimpleTSNE.rowState expf logf perp D i).lastBeta)) /
        (SimpleTSNE.rowState expf logf perp D i).sumExp := by
  have hinv := betaRun_searchInv expf logf (SimpleTSNE.rowDi D i) (logf perp)
    50 (by omega)
  unfold SimpleTSNE.condP
  rw [if_neg hij]
  dsimp only
  rw [show (SimpleTSNE.rowState expf logf perp D i).expD =
      SimpleTSNE.evalExpD expf (SimpleTSNE.rowDi D i)
        (SimpleTSNE.rowState expf logf perp D i).lastBeta from hinv.1]
  unfold SimpleTSNE.evalExpD SimpleTSNE.rowDi
  rw [List.map_map, getD_map_indexOf _ _ (mem_others.mpr hij)]
  rfl

theorem rowState_sumExp {n : ℕ} (expf logf : α → α) (perp : α)
    (D : Mat n n α) (i : Fin n) :
    (SimpleTSNE.rowState expf logf perp D i).sumExp =
      ∑ j ∈ Finset.univ.erase i,
        expf (-(D i j * (SimpleTSNE.rowState expf logf perp D i).lastBeta)) := by
  have hinv := betaRun_searchInv expf logf (SimpleTSNE.rowDi D i) (logf perp)
    50 (by omega)
  rw [show (SimpleTSNE.rowState expf logf perp D i).sumExp =
      (SimpleTSNE.evalExpD expf (SimpleTSNE.rowDi D i)
        (SimpleTSNE.rowState expf logf perp D i).lastBeta).sum from hinv.2.1]
  unfold SimpleTSNE.evalExpD SimpleTSNE.rowDi
  rw [List.map_map, sum_map_others]
  rfl

theorem rowState_sumExp_pos {n : ℕ} (hn : 2 ≤ n) (expf logf : α → α)
    (hexp : ∀ x, 0 < expf x) (perp : α) (D : Mat n n α) (i : Fin n) :
    0 < (SimpleTSNE.rowState expf logf perp D i).sumExp := by
  rw [rowState_sumExp]
  refine Finset.sum_pos (fun j _ => hexp _) ?_
  obtain ⟨j, hj⟩ := Fintype.exists_ne_of_one_lt_card
    (by simp only [Fintype.card_fin]; omega) i
  exact ⟨j, Finset.mem_erase.mpr ⟨hj, Finset.mem_univ _⟩⟩

theorem condP_diag {n : ℕ} (expf logf : α → α) (perp : α) (D : Mat n n α)
    (i : Fin n) : SimpleTSNE.condP expf logf perp D i i = 0 := by
  simp [SimpleTSNE.condP]

theorem condP_row_sum {n : ℕ} (hn : 2 ≤ n) (expf logf : α → α)
    (hexp : ∀ x, 0 < expf x) (perp : α) (D : Mat n n α) (i : Fin n) :
    ∑ j, SimpleTSNE.condP expf logf perp D i j = 1 := by
  have hs := rowState_sumExp_pos hn expf logf hexp perp D i
  rw [← Finset.sum_erase_add _ _ (Finset.mem_univ i), condP_diag, add_zero]
  have hrw : ∀ j ∈ Finset.univ.erase i,
      SimpleTSNE.condP expf logf perp D i j =
        expf (-(D i j * (SimpleTSNE.rowState expf logf perp D i).lastBeta)) /
          (SimpleTSNE.rowState expf logf perp D i).sumExp := by
    intro j hj
    exact condP_apply expf logf perp D (Finset.mem_erase.mp hj).1
  rw [Finset.sum_congr rfl hrw, ← Finset.sum_div, ← rowState_sumExp]
  exact div_self hs.ne'

theorem condP_total {n : ℕ} (hn : 2 ≤ n) (expf logf : α → α)
    (hexp : ∀ x, 0 < expf x) (perp : α) (D : Mat n n α) :
    ∑ i, ∑ j, SimpleTSNE.condP expf logf perp D i j = (n : α) := by
  rw [Finset.sum_congr rfl
    (fun i _ => condP_row_sum hn expf logf hexp perp D i)]
  simp

theorem symP_total {n : ℕ} (hn : 2 ≤ n) (expf logf : α → α)
    (hexp : ∀ x, 0 < expf x) (perp : α) (D : Mat n n α) :
    ∑ i, ∑ j, SimpleTSNE.symP expf logf perp D i j = 1 := by
  have hn0 : (n : α) ≠ 0 := by
    have : n ≠ 0 := by omega
    exact_mod_cast Nat.cast_ne_zero.mpr this
  have h1 : ∑ i, ∑ j, SimpleTSNE.condP expf logf perp D i j = (n : α) :=
    condP_total hn expf logf hexp perp D
  have h2 : ∑ i : Fin n, ∑ j : Fin n, SimpleTSNE.condP expf logf perp D j i =
      (n : α) := by
    rw [Finset.sum_comm]
    exact condP_total hn expf logf hexp perp D
  unfold SimpleTSNE.symP
  simp only [add_div, Finset.sum_add_distrib, Finset.sum_div]
  rw [show ∑ i : Fin n, ∑ j : Fin n,
      SimpleTSNE.condP expf logf perp D i j / (2 * (n : α)) =
      (∑ i, ∑ j, SimpleTSNE.condP expf logf perp D i j) / (2 * (n : α)) by
    simp [Finset.sum_div]]
  rw [show ∑ i : Fin n, ∑ j : Fin n,
      SimpleTSNE.condP expf logf perp D j i / (2 * (n : α)) =
      (∑ i, ∑ j, SimpleTSNE.condP expf logf perp D j i) / (2 * (n : α)) by
    simp [Finset.sum_div]]
  rw [h1, h2]
  field_simp
  ring

/-- C4 (amended).  The affinity matrix `P` built by `embed` is symmetric and
every entry is at least the floor `1e-12` (hence positive), and the loop
holds it fixed: the optimizer is the pure iteration of `loopStep` with the
same `P` at every iteration.  However the symmetrized matrix sums to 1 only
**before** the `1e-12` flooring; the returned floored matrix has total sum
strictly greater than 1, because the floor lifts the all-zero diagonal. -/
theorem affinity_matrix_invariants {n d k : ℕ} (hn : 2 ≤ n)
    (expf logf : α → α) (hexp : ∀ x, 0 < expf x) (perp : α) (X : Mat n d α)
    (iters : ℕ) (Y0 : Mat n k α) :
    (∀ i j, SimpleTSNE.jointP expf logf perp (SimpleTSNE.sqDistances X) i j =
      SimpleTSNE.jointP expf logf perp (SimpleTSNE.sqDistances X) j i) ∧
    (∀ i j, 1 / 10 ^ 12 ≤
      SimpleTSNE.jointP expf logf perp (SimpleTSNE.sqDistances X) i j) ∧
    (∑ i, ∑ j, SimpleTSNE.symP expf logf perp (SimpleTSNE.sqDistances X) i j
      = 1) ∧
    (1 < ∑ i, ∑ j,
      SimpleTSNE.jointP expf logf perp (SimpleTSNE.sqDistances X) i j) ∧
    (SimpleTSNE.fitCore expf logf perp iters X Y0 =
      (SimpleTSNE.loopStateAt
        (SimpleTSNE.jointP expf logf perp (SimpleTSNE.sqDistances X))
        (fun a b => Y0 a b * (1 / 10 ^ 4)) iters).Y) ∧
    (∀ (Z0 : Mat n k α) (m : ℕ),
      SimpleTSNE.loopStateAt
          (SimpleTSNE.jointP expf logf perp (SimpleTSNE.sqDistances X)) Z0
          (m + 1) =
        SimpleTSNE.loopStep
          (SimpleTSNE.jointP expf logf perp (SimpleTSNE.sqDistances X)) m
          (SimpleTSNE.loopStateAt
            (SimpleTSNE.jointP expf logf perp (SimpleTSNE.sqDistances X)) Z0
            m)) := by
  set D := SimpleTSNE.sqDistances X with hD
  have hsymm : ∀ i j, SimpleTSNE.jointP expf logf perp D i j =
      SimpleTSNE.jointP expf logf perp D j i := by
    intro i j
    unfold SimpleTSNE.jointP SimpleTSNE.symP
    rw [add_comm]
  have htot : ∑ i, ∑ j, SimpleTSNE.symP expf logf perp D i j = 1 :=
    symP_total hn expf logf hexp perp D
  refine ⟨hsymm, fun i j => le_max_right _ _, htot, ?_, rfl, fun _ _ => rfl⟩
  have hlt : ∑ i, ∑ j, SimpleTSNE.symP expf logf perp D i j <
      ∑ i, ∑ j, SimpleTSNE.jointP expf logf perp D i j := by
    have hi0 : (0 : ℕ) < n := by omega
    refine Finset.sum_lt_sum
      (fun i _ => Finset.sum_le_sum (fun j _ => le_max_left _ _))
      ⟨⟨0, hi0⟩, Finset.mem_univ _, Finset.sum_lt_sum
        (fun j _ => le_max_left _ _)
        ⟨⟨0, hi0⟩, Finset.mem_univ _, ?_⟩⟩
    have hdiag : SimpleTSNE.symP expf logf perp D ⟨0, hi0⟩ ⟨0, hi0⟩ = 0 := by
      unfold SimpleTSNE.symP
      rw [condP_diag, add_zero, zero_div]
    rw [hdiag]
    unfold SimpleTSNE.jointP
    rw [hdiag, max_eq_right (by positivity)]
    positivity
  rw [← htot]
  exact hlt

/-- An everywhere-positive `np.exp` stand-in over `ℚ`. -/
def expP : ℚ → ℚ := fun _ => 1

/-- A concrete 2×1 zero layout. -/
def Y2 : Mat 2 1 ℚ := fun _ _ => 0

/-- C4 witness: a concrete instantiation of `affinity_matrix_invariants`. -/
theorem affinity_matrix_invariants_witness :
    (2 ≤ 2 ∧ ∀ x : ℚ, 0 < expP x) ∧
    (1 < ∑ i, ∑ j,
      SimpleTSNE.jointP expP logW 1 (SimpleTSNE.sqDistances X0) i j) :=
  ⟨⟨by norm_num, fun _ => one_pos⟩,
    (affinity_matrix_invariants (by norm_num) expP logW (fun _ => one_pos)
      1 X0 0 Y2).2.2.2.1⟩

theorem sqDistances_X0 : SimpleTSNE.sqDistances X0 = fun _ _ => (0 : ℚ) := by
  funext i j
  simp [SimpleTSNE.sqDistances, X0]

theorem rowDi_zero : ∀ i : Fin 2, SimpleTSNE.rowDi (fun _ _ => (0 : ℚ)) i = [0] := by
  intro i
  fin_cases i <;> rfl

theorem betaRun_X0_one : SimpleTSNE.betaRun expW logW [0] 1 1 =
    { SimpleTSNE.betaInit (α := ℚ) with
      expD := SimpleTSNE.evalExpD expW [0] (SimpleTSNE.betaInit (α := ℚ)).beta,
      sumExp := (SimpleTSNE.evalExpD expW [0]
        (SimpleTSNE.betaInit (α := ℚ)).beta).sum,
      lastBeta := (SimpleTSNE.betaInit (α := ℚ)).beta, done := true,
      steps := (SimpleTSNE.betaInit (α := ℚ)).steps + 1 } := by
  rw [show (1 : ℕ) = 0 + 1 from rfl, betaRun_succ,
    show SimpleTSNE.betaRun expW logW [0] (1 : ℚ) 0 =
      SimpleTSNE.betaInit from rfl]
  exact betaStep_hit rfl (by norm_num [withinTol, SimpleTSNE.evalH,
    SimpleTSNE.evalExpD, SimpleTSNE.betaInit, expW, logW])

theorem betaRun_X0_fifty : SimpleTSNE.betaRun expW logW [0] (1 : ℚ) 50 =
    SimpleTSNE.betaRun expW logW [0] 1 1 :=
  betaRun_done_stable expW logW [0] 1 1 49 (by rw [betaRun_X0_one])

theorem evalExpD_X0 :
    SimpleTSNE.evalExpD expW [0] (SimpleTSNE.betaInit (α := ℚ)).beta = [1] := by
  norm_num [SimpleTSNE.evalExpD, SimpleTSNE.betaInit, expW]

theorem condP_X0 : ∀ i j : Fin 2, ¬ j = i →
    SimpleTSNE.condP expW logW 1 (fun _ _ => (0 : ℚ)) i j = 1 := by
  intro i j hij
  unfold SimpleTSNE.condP
  rw [if_neg hij]
  dsimp only
  unfold SimpleTSNE.rowState
  rw [rowDi_zero i, show logW 1 = 1 from rfl, betaRun_X0_fifty, betaRun_X0_one]
  dsimp only
  rw [evalExpD_X0]
  fin_cases i <;> fin_cases j
  · exact absurd rfl hij
  · show ([1] : List ℚ).getD 0 0 / ([1] : List ℚ).sum = 1
    norm_num
  · show ([1] : List ℚ).getD 0 0 / ([1] : List ℚ).sum = 1
    norm_num
  · exact absurd rfl hij

theorem jointP_X0_diag : ∀ i : Fin 2,
    SimpleTSNE.jointP expW logW 1 (fun _ _ => (0 : ℚ)) i i = 1 / 10 ^ 12 := by
  intro i
  unfold SimpleTSNE.jointP SimpleTSNE.symP
  rw [condP_diag]
  norm_num

theorem jointP_X0_offdiag : ∀ i j : Fin 2, ¬ j = i →
    SimpleTSNE.jointP expW logW 1 (fun _ _ => (0 : ℚ)) i j = 1 / 2 := by
  intro i j hij
  unfold SimpleTSNE.jointP SimpleTSNE.symP
  rw [condP_X0 i j hij, condP_X0 j i (fun h => hij h.symm),
    max_eq_left (by norm_num)]
  norm_num

/-- C4 counterexample:  for two duplicate points the floored affinity matrix
does not sum to 1 (the flooring of the zero diagonal pushes the total to
`1 + 2e-12`). -/
theorem affinity_sum_counterexample :
    ¬ (∑ i, ∑ j,
      SimpleTSNE.jointP expW logW 1 (SimpleTSNE.sqDistances X0) i j = 1) := by
  intro hcon
  simp only [sqDistances_X0, Fin.sum_univ_two] at hcon
  rw [jointP_X0_diag 0, jointP_X0_diag 1,
    jointP_X0_offdiag 0 1 (by decide), jointP_X0_offdiag 1 0 (by decide)]
    at hcon
  norm_num at hcon

end Engine

end FraudViz
